import Mathlib

/-!
Verification development for the sender/query side of the unbalanced ePSU
protocol (src/unbalanced_ePSU/MCRG/sender/apsu/sender_ddh.h).  The source
file declares the orchestrator class (Sender), its attempt-cap constant and
its accessors; the cuckoo indexing, powers-dag construction and
result-processing bodies live in external units, so those operations are
modelled from the specification and checked against it together with the
declarations that do appear in the source.
-/

set_option autoImplicit false
set_option maxRecDepth 8192

/-- A hashed item: the OPRF output for one raw item, abstracted as a natural
number (the fixed-width pseudorandom value of the source). -/
abbrev HashedItem := Nat

/-- A cuckoo table: one bin per index; a bin holds the original input position
of the item placed there, or nothing.  Storing positions makes the induced
index translation table (position to bin) explicit. -/
abbrev CuckooTable := List (Option Nat)

/-- Modelled from the spec: the cuckoo-hashing configuration consumed by
Sender.create_query.  The Kuku table implementation is not under src (only the
attempt-cap constant and the create_query declaration are), so the table size,
the cuckoo hash functions and the random-walk choice source are explicit
fields here. -/
structure CuckooConfig where
  tableSize : Nat
  hashes : List (HashedItem → Nat)
  rand : Nat → Nat

/-- The candidate bins of a hashed item: one bin per configured hash function,
reduced modulo the table size. -/
def candidateBins (cfg : CuckooConfig) (x : HashedItem) : List Nat :=
  cfg.hashes.map (fun h => h x % cfg.tableSize)

/-- First candidate bin that is currently empty, if any. -/
def firstEmpty (table : CuckooTable) : List Nat → Option Nat
  | [] => none
  | b :: bs => if table.get? b = some none then some b else firstEmpty table bs

/-- Modelled from the spec: one bounded random-walk cuckoo insertion
(spec 4.3 steps 2-3; the implementation behind
Sender.cuckoo_table_insert_attempts is external to src).  `step` indexes the
randomness consumed so far, `fuel` is the remaining attempt budget, `p` is the
original position being (re)inserted; on collision the occupant of a randomly
chosen candidate bin is evicted and reinserted with one attempt consumed. -/
def walkInsert (cfg : CuckooConfig) (items : List HashedItem) :
    Nat → Nat → CuckooTable → Nat → Option CuckooTable
  | _, 0, _, _ => none
  | step, fuel + 1, table, p =>
    let bins := candidateBins cfg (items.getD p 0)
    match firstEmpty table bins with
    | some b => some (table.set b (some p))
    | none =>
      match bins.get? (cfg.rand step % bins.length) with
      | none => none
      | some b =>
        match table.get? b with
        | some (some q) => walkInsert cfg items (step + 1) fuel (table.set b (some p)) q
        | _ => none

/-- The single failure condition of the indexing operation. -/
inductive CuckooError where
  | capacityExceeded
  deriving DecidableEq

/-- Modelled from the spec: the indexing loop of Sender.create_query — insert
the positions `ps` one after the other, each with the given attempt cap;
exceeding the cap for any item fails the whole operation (spec 4.3 step 3)
and no table is returned. -/
def indexFromCap (cfg : CuckooConfig) (items : List HashedItem) (cap : Nat) :
    List Nat → CuckooTable → Except CuckooError CuckooTable
  | [], table => Except.ok table
  | p :: ps, table =>
    match walkInsert cfg items 0 cap table p with
    | none => Except.error CuckooError.capacityExceeded
    | some t => indexFromCap cfg items cap ps t

/-- Index a whole item vector into an initially empty table with a given
attempt cap. -/
def indexCap (cfg : CuckooConfig) (items : List HashedItem) (cap : Nat) :
    Except CuckooError CuckooTable :=
  indexFromCap cfg items cap (List.range items.length) (List.replicate cfg.tableSize none)

/-- The number of random-walk steps used by the Kuku library to insert items
into the cuckoo hash table (src sender_ddh.h line 137,
Sender::cuckoo_table_insert_attempts). -/
def cuckoo_table_insert_attempts : Nat := 500

/-- Modelled from the spec: the indexing operation inside Sender.create_query
(src declares create_query only); every insertion uses the configured
attempt-cap constant. -/
def indexItems (cfg : CuckooConfig) (items : List HashedItem) :
    Except CuckooError CuckooTable :=
  indexCap cfg items cuckoo_table_insert_attempts

/-- The index translation table induced by a cuckoo table: the bin holding a
given original position, if any. -/
def ittLookup : CuckooTable → Nat → Option Nat
  | [], _ => none
  | v :: rest, p => if v = some p then some 0 else (ittLookup rest p).map (fun b => b + 1)

/-- Occurrence count of a bin value in a table. -/
def cnt (a : Option Nat) : CuckooTable → Nat
  | [] => 0
  | v :: rest => (if v = a then 1 else 0) + cnt a rest

/-- Number of occupied bins. -/
def occ : CuckooTable → Nat
  | [] => 0
  | v :: rest => (if v.isSome then 1 else 0) + occ rest

/-- Occurrence count of a position in a list of positions. -/
def cntN (a : Nat) : List Nat → Nat
  | [] => 0
  | p :: rest => (if p = a then 1 else 0) + cntN a rest

theorem occ_le_length (t : CuckooTable) : occ t ≤ t.length := by
  induction t with
  | nil => simp [occ]
  | cons v rest ih =>
    simp only [occ, List.length_cons]
    cases v <;> simp <;> omega

theorem cnt_set (l : CuckooTable) (b : Nat) (w v a : Option Nat)
    (h : l.get? b = some w) :
    cnt a (l.set b v) + (if w = a then 1 else 0) = cnt a l + (if v = a then 1 else 0) := by
  induction l generalizing b with
  | nil => simp [List.get?] at h
  | cons x xs ih =>
    cases b with
    | zero =>
      simp only [List.get?] at h
      cases h
      simp only [List.set, cnt]
      omega
    | succ n =>
      simp only [List.get?] at h
      simp only [List.set, cnt]
      have := ih n h
      omega

theorem occ_set (l : CuckooTable) (b : Nat) (w v : Option Nat)
    (h : l.get? b = some w) :
    occ (l.set b v) + (if w.isSome then 1 else 0) = occ l + (if v.isSome then 1 else 0) := by
  induction l generalizing b with
  | nil => simp [List.get?] at h
  | cons x xs ih =>
    cases b with
    | zero =>
      simp only [List.get?] at h
      cases h
      simp only [List.set, occ]
      omega
    | succ n =>
      simp only [List.get?] at h
      simp only [List.set, occ]
      have := ih n h
      omega

theorem firstEmpty_get (table : CuckooTable) (bins : List Nat) (b : Nat)
    (h : firstEmpty table bins = some b) : table.get? b = some none := by
  induction bins with
  | nil => simp [firstEmpty] at h
  | cons c cs ih =>
    simp only [firstEmpty] at h
    by_cases hc : table.get? c = some none
    · rw [if_pos hc] at h
      cases h
      exact hc
    · rw [if_neg hc] at h
      exact ih h

theorem firstEmpty_none_of_no_empty (table : CuckooTable) (bins : List Nat)
    (h : ∀ b, table.get? b ≠ some none) : firstEmpty table bins = none := by
  induction bins with
  | nil => rfl
  | cons c cs ih =>
    simp only [firstEmpty]
    rw [if_neg (h c)]
    exact ih

theorem get_ne_some_none_of_full (t : CuckooTable) (hfull : occ t = t.length) :
    ∀ b, t.get? b ≠ some none := by
  induction t with
  | nil => intro b; simp [List.get?]
  | cons v rest ih =>
    intro b
    simp only [occ, List.length_cons] at hfull
    have hle := occ_le_length rest
    cases v with
    | none => simp at hfull; omega
    | some x =>
      simp at hfull
      have hrest : occ rest = rest.length := by omega
      cases b with
      | zero => simp [List.get?]
      | succ n => simp only [List.get?]; exact ih hrest n

theorem walkInsert_length (cfg : CuckooConfig) (items : List HashedItem) :
    ∀ fuel step table p t', walkInsert cfg items step fuel table p = some t' →
      t'.length = table.length := by
  intro fuel
  induction fuel with
  | zero => intro step table p t' h; simp [walkInsert] at h
  | succ f ih =>
    intro step table p t' h
    simp only [walkInsert] at h
    split at h
    · cases h
      simp [List.length_set]
    · split at h
      · cases h
      · split at h
        · have := ih _ _ _ _ h
          simp [List.length_set] at this
          exact this
        · cases h

theorem walkInsert_cnt (cfg : CuckooConfig) (items : List HashedItem) :
    ∀ fuel step table p t', walkInsert cfg items step fuel table p = some t' →
      ∀ a : Nat, cnt (some a) t' = cnt (some a) table + (if p = a then 1 else 0) := by
  intro fuel
  induction fuel with
  | zero => intro step table p t' h; simp [walkInsert] at h
  | succ f ih =>
    intro step table p t' h a
    simp only [walkInsert] at h
    split at h
    · rename_i b hb
      cases h
      have hget := firstEmpty_get table _ b hb
      have hcs := cnt_set table b none (some p) (some a) hget
      by_cases hpa : p = a
      · subst hpa
        simp at hcs ⊢
        omega
      · simp [hpa] at hcs ⊢
        omega
    · split at h
      · cases h
      · split at h
        · rename_i x1 b hb x2 q hg
          have h1 := ih (step + 1) (table.set b (some p)) q t' h a
          have h2 := cnt_set table b (some q) (some p) (some a) hg
          by_cases hpa : p = a <;> by_cases hqa : q = a <;>
              simp [hpa, hqa] at h1 h2 ⊢ <;> omega
        · cases h

theorem walkInsert_occ (cfg : CuckooConfig) (items : List HashedItem) :
    ∀ fuel step table p t', walkInsert cfg items step fuel table p = some t' →
      occ t' = occ table + 1 := by
  intro fuel
  induction fuel with
  | zero => intro step table p t' h; simp [walkInsert] at h
  | succ f ih =>
    intro step table p t' h
    simp only [walkInsert] at h
    split at h
    · rename_i b hb
      cases h
      have hget := firstEmpty_get table _ b hb
      have hos := occ_set table b none (some p) hget
      simp at hos
      omega
    · split at h
      · cases h
      · split at h
        · rename_i x1 b hb x2 q hg
          have h1 := ih (step + 1) (table.set b (some p)) q t' h
          have h2 := occ_set table b (some q) (some p) hg
          simp at h2
          omega
        · cases h

theorem walkInsert_full_fails (cfg : CuckooConfig) (items : List HashedItem) :
    ∀ fuel step table p, occ table = table.length →
      walkInsert cfg items step fuel table p = none := by
  intro fuel
  induction fuel with
  | zero => intro step table p _; rfl
  | succ f ih =>
    intro step table p hfull
    have hne := get_ne_some_none_of_full table hfull
    simp only [walkInsert]
    split
    · rename_i b hb
      exact absurd (firstEmpty_get table _ b hb) (hne b)
    · split
      · rfl
      · split
        · rename_i x1 b hb x2 q hg
          have h2 := occ_set table b (some q) (some p) hg
          simp at h2
          have hlen : (table.set b (some p)).length = table.length := List.length_set table b _
          exact ih (step + 1) (table.set b (some p)) q (by omega)
        · rfl

theorem walkInsert_mono (cfg : CuckooConfig) (items : List HashedItem) :
    ∀ fuel step table p t', walkInsert cfg items step fuel table p = some t' →
      walkInsert cfg items step (fuel + 1) table p = some t' := by
  intro fuel
  induction fuel with
  | zero => intro step table p t' h; simp [walkInsert] at h
  | succ f ih =>
    intro step table p t' h
    simp only [walkInsert] at h ⊢
    split at h
    · exact h
    · split at h
      · cases h
      · split at h
        · exact ih _ _ _ _ h
        · cases h

theorem indexFromCap_length (cfg : CuckooConfig) (items : List HashedItem) (cap : Nat) :
    ∀ ps table t', indexFromCap cfg items cap ps table = Except.ok t' →
      t'.length = table.length := by
  intro ps
  induction ps with
  | nil => intro table t' h; cases h; rfl
  | cons p rest ih =>
    intro table t' h
    simp only [indexFromCap] at h
    split at h
    · cases h
    · rename_i t hw
      rw [ih t t' h, walkInsert_length cfg items cap 0 table p t hw]

theorem indexFromCap_cnt (cfg : CuckooConfig) (items : List HashedItem) (cap : Nat) :
    ∀ ps table t', indexFromCap cfg items cap ps table = Except.ok t' →
      ∀ a, cnt (some a) t' = cnt (some a) table + cntN a ps := by
  intro ps
  induction ps with
  | nil => intro table t' h a; cases h; simp [cntN]
  | cons p rest ih =>
    intro table t' h a
    simp only [indexFromCap] at h
    split at h
    · cases h
    · rename_i t hw
      have h1 := ih t t' h a
      have h2 := walkInsert_cnt cfg items cap 0 table p t hw a
      simp only [cntN]
      omega

theorem indexFromCap_occ (cfg : CuckooConfig) (items : List HashedItem) (cap : Nat) :
    ∀ ps table t', indexFromCap cfg items cap ps table = Except.ok t' →
      occ t' = occ table + ps.length := by
  intro ps
  induction ps with
  | nil => intro table t' h; cases h; simp
  | cons p rest ih =>
    intro table t' h
    simp only [indexFromCap] at h
    split at h
    · cases h
    · rename_i t hw
      have h1 := ih t t' h
      have h2 := walkInsert_occ cfg items cap 0 table p t hw
      simp only [List.length_cons]
      omega

theorem cnt_replicate_none (k : Nat) (a : Nat) :
    cnt (some a) (List.replicate k none) = 0 := by
  induction k with
  | zero => rfl
  | succ n ih => simp [List.replicate, cnt, ih]

theorem occ_replicate_none (k : Nat) : occ (List.replicate k none) = 0 := by
  induction k with
  | zero => rfl
  | succ n ih => simp [List.replicate, occ, ih]

theorem cntN_append (a : Nat) (l₁ l₂ : List Nat) :
    cntN a (l₁ ++ l₂) = cntN a l₁ + cntN a l₂ := by
  induction l₁ with
  | nil => simp [cntN]
  | cons p rest ih =>
    simp only [List.cons_append, cntN]
    rw [List.append_eq, ih]
    omega

theorem cntN_range (a n : Nat) : cntN a (List.range n) = if a < n then 1 else 0 := by
  induction n with
  | zero => simp [List.range_zero, cntN]
  | succ m ih =>
    rw [List.range_succ, cntN_append, ih]
    simp only [cntN]
    rcases Nat.lt_trichotomy a m with hlt | heq | hgt
    · simp [hlt, Nat.lt_succ_of_lt hlt, show m ≠ a from by omega]
    · subst heq
      simp [Nat.lt_irrefl, Nat.lt_succ_self]
    · simp [show ¬ a < m from by omega, show ¬ a < m + 1 from by omega,
        show m ≠ a from by omega]

theorem ittLookup_get (t : CuckooTable) (p b : Nat) (h : ittLookup t p = some b) :
    t.get? b = some (some p) := by
  induction t generalizing b with
  | nil => simp [ittLookup] at h
  | cons v rest ih =>
    simp only [ittLookup] at h
    by_cases hv : v = some p
    · rw [if_pos hv] at h
      cases h
      simp [List.get?, hv]
    · rw [if_neg hv] at h
      cases hl : ittLookup rest p with
      | none => rw [hl] at h; cases h
      | some b0 =>
        rw [hl] at h
        simp at h
        subst h
        simp only [List.get?]
        exact ih b0 hl

theorem ittLookup_lt_length (t : CuckooTable) (p b : Nat) (h : ittLookup t p = some b) :
    b < t.length := by
  induction t generalizing b with
  | nil => simp [ittLookup] at h
  | cons v rest ih =>
    simp only [ittLookup] at h
    by_cases hv : v = some p
    · rw [if_pos hv] at h
      cases h
      simp
    · rw [if_neg hv] at h
      cases hl : ittLookup rest p with
      | none => rw [hl] at h; cases h
      | some b0 =>
        rw [hl] at h
        simp at h
        subst h
        have := ih b0 hl
        simp only [List.length_cons]
        omega

theorem ittLookup_exists (t : CuckooTable) (p : Nat) (h : 0 < cnt (some p) t) :
    ∃ b, ittLookup t p = some b := by
  induction t with
  | nil => simp [cnt] at h
  | cons v rest ih =>
    simp only [cnt] at h
    by_cases hv : v = some p
    · exact ⟨0, by simp [ittLookup, hv]⟩
    · rw [if_neg hv] at h
      have hrest : 0 < cnt (some p) rest := by omega
      obtain ⟨b, hb⟩ := ih hrest
      exact ⟨b + 1, by simp [ittLookup, hv, hb]⟩

theorem cnt_pos_of_get (t : CuckooTable) (b : Nat) (v : Option Nat)
    (h : t.get? b = some v) : 0 < cnt v t := by
  induction t generalizing b with
  | nil => simp [List.get?] at h
  | cons x rest ih =>
    cases b with
    | zero =>
      simp only [List.get?] at h
      cases h
      have hx : cnt v (v :: rest) = 1 + cnt v rest := by simp [cnt]
      omega
    | succ n =>
      simp only [List.get?] at h
      simp only [cnt]
      have := ih n h
      omega

/-- A well-behaved two-bin configuration (identity hash) on which indexing
succeeds; used to instantiate hypotheses at concrete inputs. -/
def okCfg : CuckooConfig := ⟨2, [fun x => x], fun _ => 0⟩

/-- A degenerate configuration: three bins but a single constant hash
function, so every item contends for bin 0. -/
def cexCfg : CuckooConfig := ⟨3, [fun _ => 0], fun _ => 0⟩

/-- C1 (amended): whenever the indexing operation inside create_query
succeeds, the returned index translation table is a bijection between the
original positions 0..|S| and a subset of bin indices of size |S| — every
live position maps to some bin within the table, no two live positions share
a bin, and no position outside the input is mapped.  (Success itself is not
guaranteed merely by |S| being below capacity; see the counterexample.) -/
theorem itt_bijective_of_index_ok (cfg : CuckooConfig) (items : List HashedItem)
    (t : CuckooTable) (h : indexItems cfg items = Except.ok t) :
    (∀ p, p < items.length → ∃ b, ittLookup t p = some b ∧ b < cfg.tableSize) ∧
    (∀ p q b, ittLookup t p = some b → ittLookup t q = some b → p = q) ∧
    (∀ p, items.length ≤ p → ittLookup t p = none) := by
  have h0 : indexFromCap cfg items cuckoo_table_insert_attempts (List.range items.length)
      (List.replicate cfg.tableSize none) = Except.ok t := h
  have hcnt : ∀ a, cnt (some a) t = if a < items.length then 1 else 0 := by
    intro a
    have hc := indexFromCap_cnt cfg items cuckoo_table_insert_attempts _ _ _ h0 a
    rw [cnt_replicate_none, cntN_range] at hc
    omega
  have hlen : t.length = cfg.tableSize := by
    have hl := indexFromCap_length cfg items cuckoo_table_insert_attempts _ _ _ h0
    rw [List.length_replicate] at hl
    exact hl
  refine ⟨?_, ?_, ?_⟩
  · intro p hp
    have hpos : 0 < cnt (some p) t := by rw [hcnt p]; simp [hp]
    obtain ⟨b, hb⟩ := ittLookup_exists t p hpos
    exact ⟨b, hb, hlen ▸ ittLookup_lt_length t p b hb⟩
  · intro p q b hp hq
    have h1 := ittLookup_get t p b hp
    have h2 := ittLookup_get t q b hq
    rw [h1] at h2
    simp at h2
    exact h2
  · intro p hp
    cases hl : ittLookup t p with
    | none => rfl
    | some b =>
      exfalso
      have hg := ittLookup_get t p b hl
      have hpos := cnt_pos_of_get t b (some p) hg
      rw [hcnt p] at hpos
      simp [Nat.not_lt.mpr hp] at hpos

/-- C1 witness: the bijection conclusions instantiated on a concrete
successful indexing (two items, identity hash, two bins). -/
theorem itt_bijective_of_index_ok_witness :
    (∀ p, p < ([0, 1] : List HashedItem).length →
      ∃ b, ittLookup [some 0, some 1] p = some b ∧ b < okCfg.tableSize) ∧
    (∀ p q b, ittLookup [some 0, some 1] p = some b →
      ittLookup [some 0, some 1] q = some b → p = q) ∧
    (∀ p, ([0, 1] : List HashedItem).length ≤ p → ittLookup [some 0, some 1] p = none) :=
  itt_bijective_of_index_ok okCfg [0, 1] [some 0, some 1] (by rfl)

/-- C1 counterexample: a parameter set and an item vector strictly below
table capacity (2 items, 3 bins) on which the bounded random-walk indexing
operation nevertheless fails, because the single constant hash function
forces every item into bin 0.  This refutes the unconditional success half
of the claim. -/
theorem index_can_fail_below_capacity :
    ([5, 7] : List HashedItem).length < cexCfg.tableSize ∧
    indexItems cexCfg [5, 7] = Except.error CuckooError.capacityExceeded := by
  exact ⟨by decide, by rfl⟩

/-- C2: for every configuration and every item vector larger than the number
of bins, the indexing operation inside create_query fails with the
capacity-exceeded condition and never returns a (partial) translation
table. -/
theorem index_capacity_exceeded_of_oversize (cfg : CuckooConfig) (items : List HashedItem)
    (h : cfg.tableSize < items.length) :
    indexItems cfg items = Except.error CuckooError.capacityExceeded ∧
    ∀ t, indexItems cfg items ≠ Except.ok t := by
  have hmain : indexItems cfg items = Except.error CuckooError.capacityExceeded := by
    cases hr : indexItems cfg items with
    | ok t =>
      exfalso
      have h0 : indexFromCap cfg items cuckoo_table_insert_attempts (List.range items.length)
          (List.replicate cfg.tableSize none) = Except.ok t := hr
      have hocc := indexFromCap_occ cfg items cuckoo_table_insert_attempts _ _ _ h0
      have hlen := indexFromCap_length cfg items cuckoo_table_insert_attempts _ _ _ h0
      have hle := occ_le_length t
      rw [occ_replicate_none, List.length_range] at hocc
      rw [List.length_replicate] at hlen
      omega
    | error e => cases e; rfl
  refine ⟨hmain, fun t ht => ?_⟩
  rw [hmain] at ht
  cases ht

/-- C2 witness: three items cannot be indexed into two bins. -/
theorem index_capacity_exceeded_of_oversize_witness :
    indexItems okCfg [1, 2, 3] = Except.error CuckooError.capacityExceeded ∧
    ∀ t, indexItems okCfg [1, 2, 3] ≠ Except.ok t :=
  index_capacity_exceeded_of_oversize okCfg [1, 2, 3] (by decide)

/-- C3: the random-walk attempt bound is the fixed compile-time constant 500
(src line 137); the indexing operation used during query construction runs
every insertion with exactly this cap; an insertion gives up precisely when
its attempt budget is exhausted (zero budget always fails), and success
within some budget is preserved by a larger budget, so failing at the cap
means no smaller number of attempts would have succeeded either. -/
theorem cuckoo_insert_attempt_cap_spec :
    cuckoo_table_insert_attempts = 500 ∧
    (∀ cfg items, indexItems cfg items = indexCap cfg items 500) ∧
    (∀ cfg items step table p, walkInsert cfg items step 0 table p = none) ∧
    (∀ cfg items step fuel table p t',
      walkInsert cfg items step fuel table p = some t' →
      walkInsert cfg items step (fuel + 1) table p = some t') := by
  refine ⟨rfl, fun cfg items => rfl, fun cfg items step table p => rfl, ?_⟩
  intro cfg items step fuel table p t' h
  exact walkInsert_mono cfg items fuel step table p t' h

/-- C3 witness: the monotonicity conjunct applied to a concrete one-step
insertion. -/
theorem cuckoo_insert_attempt_cap_spec_witness :
    walkInsert okCfg [0] 0 2 (List.replicate 2 none) 0 = some [some 0, none] :=
  cuckoo_insert_attempt_cap_spec.2.2.2 okCfg [0] 0 1 (List.replicate 2 none) 0
    [some 0, none] (by rfl)

/-- Modelled from the spec: the shared protocol parameters (psu_params.h is
not under src); table size, cuckoo hash-function count, attempt cap and the
bound on the exponents required by the matching polynomial. -/
structure PSUParams where
  table_size : Nat
  hash_func_count : Nat
  max_insert_attempts : Nat
  query_powers_bound : Nat
  deriving DecidableEq

/-- Modelled from the spec: the crypto context (crypto_context.h is not
under src); it owns an opaque SEAL context handle and a relinearization-key
handle, both abstracted as numbers. -/
structure CryptoContext where
  seal_context : Nat
  relin_keys : Nat
  deriving DecidableEq

/-- Modelled from the spec: a powers-evaluation plan (apsu/powers.h is not
under src).  `depths` records, for each exponent up to `up_to`, the minimal
multiplicative depth at which it can be computed from the source powers, or
nothing if it is unreachable; `depth` is the maximal depth over the reachable
exponents. -/
structure PowersDag where
  up_to : Nat
  source_powers : List Nat
  depths : List (Option Nat)
  depth : Nat
  deriving DecidableEq

/-- Minimal depth of computing exponent `n` as a product of two smaller
exponents whose depths are already tabulated in `prev`. -/
def bestSplit (prev : List (Option Nat)) (n : Nat) : Option Nat :=
  (List.range (n - 1)).foldl
    (fun acc a =>
      match prev.getD (a + 1) none, prev.getD (n - (a + 1)) none with
      | some d1, some d2 =>
        match acc with
        | none => some (max d1 d2 + 1)
        | some d0 => some (min d0 (max d1 d2 + 1))
      | _, _ => acc)
    none

/-- Depth table for the exponents 0..upTo: a source power has depth 0, any
other exponent the best split of two earlier entries. -/
def depthList (src : List Nat) : Nat → List (Option Nat)
  | 0 => [none]
  | n + 1 =>
    let prev := depthList src n
    prev ++ [if (n + 1) ∈ src then some 0 else bestSplit prev (n + 1)]

/-- Maximal depth recorded in a depth table. -/
def maxDepth (dl : List (Option Nat)) : Nat :=
  dl.foldl (fun m d => match d with | some v => max m v | none => m) 0

/-- Modelled from the spec: deterministic powers-plan construction (spec
4.2): a pure function of the source powers and the exponent bound, with no
other input. -/
def buildPowersDag (source_powers : List Nat) (upTo : Nat) : PowersDag :=
  let dl := depthList source_powers upTo
  ⟨upTo, source_powers, dl, maxDepth dl⟩

/-- The session state of the orchestrator class, with the private fields
declared at src lines 255-272 (blocks, sizes and the PRNG state abstracted
as numbers and lists of numbers). -/
structure Sender where
  permutation : List Nat
  sender_set : List Nat
  psu_result_before_shuffle : List (List Nat)
  send_size : Int
  receiver_size : Int
  params_ : PSUParams
  crypto_context_ : CryptoContext
  pd_ : PowersDag
  relin_keys_ : Nat
  all_timer : Nat
  prng : Nat
  cuckoo_item : List Nat
  shuffle_item : List Nat
  deriving DecidableEq

/-- Sender::get_powers_dag (src lines 153-156): returns the configured
PowersDag. -/
def get_powers_dag (s : Sender) : PowersDag := s.pd_

/-- Sender::get_crypto_context (src lines 161-164): returns the crypto
context. -/
def get_crypto_context (s : Sender) : CryptoContext := s.crypto_context_

/-- Sender::get_seal_context (src lines 169-172): returns
crypto_context_.seal_context(). -/
def get_seal_context (s : Sender) : Nat := s.crypto_context_.seal_context

/-- Modelled from the spec: Sender::reset_powers_dag (declared at src line
247, body external): recompute the PowersDag from the given source powers
and the parameter-determined exponent bound, store it, and return its
depth. -/
def reset_powers_dag (s : Sender) (source_powers : List Nat) : Nat × Sender :=
  let pd := buildPowersDag source_powers s.params_.query_powers_bound
  (pd.depth, { s with pd_ := pd })

/-- C9: get_seal_context returns exactly the SEALContext held by the
CryptoContext of the session — the two accessors can never disagree. -/
theorem get_seal_context_eq_crypto_context_seal_context (s : Sender) :
    get_seal_context s = (get_crypto_context s).seal_context := rfl

/-- C4: powers-plan construction is deterministic: two senders holding the
same parameters — regardless of their PRNG state, timers or buffers —
obtain structurally identical PowersDag objects (same stored dag, same
source powers, same depth table, same returned depth) from
reset_powers_dag on the same source-power set. -/
theorem reset_powers_dag_deterministic (s₁ s₂ : Sender) (sp : List Nat)
    (h : s₁.params_ = s₂.params_) :
    (reset_powers_dag s₁ sp).2.pd_ = (reset_powers_dag s₂ sp).2.pd_ ∧
    (reset_powers_dag s₁ sp).1 = (reset_powers_dag s₂ sp).1 ∧
    (reset_powers_dag s₁ sp).2.pd_.source_powers = (reset_powers_dag s₂ sp).2.pd_.source_powers ∧
    (reset_powers_dag s₁ sp).2.pd_.depths = (reset_powers_dag s₂ sp).2.pd_.depths := by
  unfold reset_powers_dag
  rw [h]
  exact ⟨rfl, rfl, rfl, rfl⟩

/-- Concrete parameters used to instantiate sender states. -/
def baseParams : PSUParams := ⟨8, 1, 500, 4⟩

/-- A concrete crypto context. -/
def baseCtx : CryptoContext := ⟨1, 2⟩

/-- A first concrete sender state. -/
def senderA : Sender :=
  ⟨[], [], [], 0, 0, baseParams, baseCtx, buildPowersDag [1] 4, 0, 0, 17, [], []⟩

/-- A second concrete sender state: same parameters as senderA but a
different PRNG state, timer and buffers. -/
def senderB : Sender :=
  ⟨[3], [4], [[5]], 7, 9, baseParams, baseCtx, buildPowersDag [1] 4, 6, 8, 99, [2], [1]⟩

/-- C4 witness: determinism instantiated at two concrete sender states that
differ in every field except the parameters. -/
theorem reset_powers_dag_deterministic_witness :
    (reset_powers_dag senderA [1, 2]).2.pd_ = (reset_powers_dag senderB [1, 2]).2.pd_ ∧
    (reset_powers_dag senderA [1, 2]).1 = (reset_powers_dag senderB [1, 2]).1 ∧
    (reset_powers_dag senderA [1, 2]).2.pd_.source_powers =
      (reset_powers_dag senderB [1, 2]).2.pd_.source_powers ∧
    (reset_powers_dag senderA [1, 2]).2.pd_.depths =
      (reset_powers_dag senderB [1, 2]).2.pd_.depths :=
  reset_powers_dag_deterministic senderA senderB [1, 2] rfl

/-- Modelled from the spec: the Response objects received on the channel
(apsu/responses.h is not under src; the source documents the conversion
contract at lines 85-92).  A response is of exactly one kind. -/
inductive Response where
  | params (p : PSUParams)
  | oprf (data : List Nat)
  | query (package_count : Nat)
  deriving DecidableEq

/-- Modelled from the spec: to_params_response (contract documented in src
lines 85-92): converts a received Response to a ParamsResponse, yielding
nothing (nullptr) when the response is not of the right kind. -/
def to_params_response : Response → Option PSUParams
  | Response.params p => some p
  | _ => none

/-- The failure conditions surfaced by the orchestrator. -/
inductive ApsuError where
  | protocolViolation
  deriving DecidableEq

/-- Modelled from the spec: the outcome of Sender::RequestParams (declared
at src line 177, body external) on a received response: a wrong-kind
response is a protocol violation (no parameters received), never a value. -/
def requestParamsOutcome (r : Response) : Except ApsuError PSUParams :=
  match to_params_response r with
  | none => Except.error ApsuError.protocolViolation
  | some p => Except.ok p

/-- C8: every received Response that is not a params response converts to
nothing (nullptr) under to_params_response, and the RequestParams step then
yields a protocol-violation failure — never any PSUParams value, in
particular never valid empty parameters. -/
theorem wrong_kind_response_yields_none (r : Response)
    (h : ∀ p, r ≠ Response.params p) :
    to_params_response r = none ∧
    requestParamsOutcome r = Except.error ApsuError.protocolViolation ∧
    ∀ p, requestParamsOutcome r ≠ Except.ok p := by
  cases r with
  | params p => exact absurd rfl (h p)
  | oprf d => exact ⟨rfl, rfl, fun p hc => by cases hc⟩
  | query n => exact ⟨rfl, rfl, fun p hc => by cases hc⟩

/-- C8 witness: a concrete OPRF response arriving where parameters were
expected. -/
theorem wrong_kind_response_yields_none_witness :
    to_params_response (Response.oprf [3]) = none ∧
    requestParamsOutcome (Response.oprf [3]) = Except.error ApsuError.protocolViolation ∧
    ∀ p, requestParamsOutcome (Response.oprf [3]) ≠ Except.ok p :=
  wrong_kind_response_yields_none (Response.oprf [3]) (fun p h => by cases h)

/-- One unit of the shuffled result stream: the (bin index, match bit) pairs
whose results fall in this part. -/
structure ResultPart where
  bins : List (Nat × Bool)
  deriving DecidableEq

/-- The channel state visible to result processing: the records forwarded so
far. -/
structure Channel where
  sent : List (List Bool)
  deriving DecidableEq

/-- Modelled from the spec: decoding one ResultPart through the index
translation table — for every original position (in input order) the part
yields a match exactly when it contains a positive entry for the bin that
position was mapped to. -/
def decodePart (itt : CuckooTable) (n : Nat) (rp : ResultPart) : List Bool :=
  (List.range n).map (fun p =>
    rp.bins.any (fun bb => bb.2 && (ittLookup itt p == some bb.1)))

/-- Pointwise disjunction of two per-position match vectors. -/
def orVec (a b : List Bool) : List Bool := List.zipWith or a b

/-- Modelled from the spec: accumulating the decoded results of a collection
of ResultParts into the complete per-original-item match vector (the logical
OR of the per-part results, src lines 220-228). -/
def processAllParts (itt : CuckooTable) (n : Nat) (parts : List ResultPart) : List Bool :=
  parts.foldl (fun acc rp => orVec acc (decodePart itt n rp)) (List.replicate n false)

/-- Modelled from the spec: Sender::process_result_part (declared const at
src lines 214-218, body external): decodes the given part through the stored
translation table and forwards the decoded records on the channel; being a
const member with no mutable fields, it leaves the Sender untouched. -/
def process_result_part (s : Sender) (itt : CuckooTable) (rp : ResultPart)
    (chl : Channel) : Sender × Channel :=
  (s, ⟨chl.sent ++ [decodePart itt (occ itt) rp]⟩)

/-- C10: process_result_part is a const operation on the Sender: every
session field — parameters, crypto context, powers dag, relinearization
keys, and the shuffle buffers — is unchanged by the call; only the results
channel is extended. -/
theorem process_result_part_preserves_sender (s : Sender) (itt : CuckooTable)
    (rp : ResultPart) (chl : Channel) :
    (process_result_part s itt rp chl).1 = s ∧
    (process_result_part s itt rp chl).1.params_ = s.params_ ∧
    (process_result_part s itt rp chl).1.crypto_context_ = s.crypto_context_ ∧
    (process_result_part s itt rp chl).1.pd_ = s.pd_ ∧
    (process_result_part s itt rp chl).1.relin_keys_ = s.relin_keys_ ∧
    (process_result_part s itt rp chl).1.permutation = s.permutation ∧
    (process_result_part s itt rp chl).1.psu_result_before_shuffle =
      s.psu_result_before_shuffle ∧
    (process_result_part s itt rp chl).1.cuckoo_item = s.cuckoo_item ∧
    (process_result_part s itt rp chl).1.shuffle_item = s.shuffle_item :=
  ⟨rfl, rfl, rfl, rfl, rfl, rfl, rfl, rfl, rfl⟩

/-- The C++ return types relevant to the process_result_part declaration. -/
inductive CppReturnType where
  | voidReturn
  | vectorMatchRecord
  deriving DecidableEq

/-- A member-function declaration shape: return type and constness. -/
structure MemberFunctionDecl where
  returnType : CppReturnType
  isConst : Bool
  deriving DecidableEq

/-- The declaration of Sender::process_result_part as written in src lines
214-218: a const member returning void (taking the translation table, the
result part and a channel). -/
def process_result_part_decl : MemberFunctionDecl :=
  ⟨CppReturnType.voidReturn, true⟩

/-- The return type promised by the doc comment above the same declaration
(src lines 207-213): a vector of MatchRecords in the order of the original
hashed items. -/
def process_result_part_documented_return : CppReturnType :=
  CppReturnType.vectorMatchRecord

/-- C5: the code contradicts its own documentation — the declared
process_result_part returns void, so it cannot return the vector of
MatchRecords its doc comment (and the claim) promises. -/
theorem process_result_part_decl_returns_void :
    process_result_part_decl.returnType = CppReturnType.voidReturn ∧
    process_result_part_decl.returnType ≠ process_result_part_documented_return :=
  ⟨rfl, by decide⟩

theorem orVec_assoc (a b c : List Bool) :
    orVec (orVec a b) c = orVec a (orVec b c) := by
  induction a generalizing b c with
  | nil => simp [orVec]
  | cons x xs ih =>
    cases b with
    | nil => simp [orVec]
    | cons y ys =>
      cases c with
      | nil => simp [orVec]
      | cons z zs =>
        simp only [orVec, List.zipWith_cons_cons]
        have hz := ih ys zs
        simp only [orVec] at hz
        rw [Bool.or_assoc, hz]

theorem orVec_comm (a b : List Bool) : orVec a b = orVec b a := by
  induction a generalizing b with
  | nil => cases b <;> simp [orVec]
  | cons x xs ih =>
    cases b with
    | nil => simp [orVec]
    | cons y ys =>
      simp only [orVec, List.zipWith_cons_cons]
      have hz := ih ys
      simp only [orVec] at hz
      rw [Bool.or_comm, hz]

theorem orVec_left_comm (a b c : List Bool) :
    orVec (orVec a b) c = orVec (orVec a c) b := by
  rw [orVec_assoc, orVec_assoc, orVec_comm b c]

/-- The accumulation step used by result processing. -/
def orStep (itt : CuckooTable) (n : Nat) (acc : List Bool) (rp : ResultPart) : List Bool :=
  orVec acc (decodePart itt n rp)

theorem processAllParts_eq_foldl (itt : CuckooTable) (n : Nat) (parts : List ResultPart) :
    processAllParts itt n parts = parts.foldl (orStep itt n) (List.replicate n false) := rfl

theorem length_decodePart (itt : CuckooTable) (n : Nat) (rp : ResultPart) :
    (decodePart itt n rp).length = n := by
  simp [decodePart]

theorem length_foldl_orStep (itt : CuckooTable) (n : Nat) (parts : List ResultPart) :
    ∀ acc : List Bool, acc.length = n →
      (parts.foldl (orStep itt n) acc).length = n := by
  induction parts with
  | nil => intro acc h; exact h
  | cons rp rest ih =>
    intro acc h
    simp only [List.foldl]
    apply ih
    simp [orStep, orVec, h, length_decodePart]

theorem orVec_replicate_false (a : List Bool) (n : Nat) (h : a.length = n) :
    orVec a (List.replicate n false) = a := by
  induction a generalizing n with
  | nil => simp [orVec]
  | cons x xs ih =>
    cases n with
    | zero => simp at h
    | succ m =>
      simp only [List.replicate, orVec, List.zipWith_cons_cons]
      have hz := ih m (by simpa using h)
      simp only [orVec] at hz
      rw [Bool.or_false, hz]

theorem foldl_orStep_factor (itt : CuckooTable) (n : Nat) (qs : List ResultPart) :
    ∀ a b : List Bool,
      qs.foldl (orStep itt n) (orVec a b) = orVec a (qs.foldl (orStep itt n) b) := by
  induction qs with
  | nil => intro a b; rfl
  | cons rp rest ih =>
    intro a b
    simp only [List.foldl, orStep]
    rw [orVec_assoc]
    exact ih a (orVec b (decodePart itt n rp))

theorem foldl_orStep_perm (itt : CuckooTable) (n : Nat) (l₁ l₂ : List ResultPart)
    (h : List.Perm l₁ l₂) :
    ∀ acc : List Bool, l₁.foldl (orStep itt n) acc = l₂.foldl (orStep itt n) acc := by
  induction h with
  | nil => intro acc; rfl
  | cons x _ ih => intro acc; simp only [List.foldl]; exact ih _
  | swap x y l =>
    intro acc
    simp only [List.foldl, orStep]
    rw [orVec_left_comm]
  | trans _ _ ih₁ ih₂ => intro acc; rw [ih₁ acc, ih₂ acc]

/-- C6: result-part processing is order-independent — processing the
expected parts in any order yields the same complete per-original-item
match vector, and the processing may be split across any number of calls:
the combined result of two batches is the pointwise OR of the batch
results. -/
theorem process_result_parts_order_independent (itt : CuckooTable) (n : Nat)
    (parts₁ parts₂ : List ResultPart) (hperm : List.Perm parts₁ parts₂) :
    processAllParts itt n parts₁ = processAllParts itt n parts₂ ∧
    ∀ ps qs : List ResultPart,
      processAllParts itt n (ps ++ qs) =
        orVec (processAllParts itt n ps) (processAllParts itt n qs) := by
  constructor
  · exact foldl_orStep_perm itt n parts₁ parts₂ hperm _
  · intro ps qs
    rw [processAllParts_eq_foldl, processAllParts_eq_foldl, processAllParts_eq_foldl,
      List.foldl_append]
    have hlen : (ps.foldl (orStep itt n) (List.replicate n false)).length = n :=
      length_foldl_orStep itt n ps _ (by simp)
    rw [← orVec_replicate_false (ps.foldl (orStep itt n) (List.replicate n false)) n hlen]
    rw [foldl_orStep_factor]
    rw [orVec_replicate_false _ n hlen]

/-- A concrete part reporting a positive match in bin 0. -/
def rpA : ResultPart := ⟨[(0, true)]⟩

/-- A concrete part reporting a positive match in bin 1. -/
def rpB : ResultPart := ⟨[(1, true)]⟩

/-- C6 witness: the order-independence conclusions instantiated on two
concrete parts delivered in the two possible orders. -/
theorem process_result_parts_order_independent_witness :
    processAllParts [some 0, some 1] 2 [rpA, rpB] =
      processAllParts [some 0, some 1] 2 [rpB, rpA] ∧
    ∀ ps qs : List ResultPart,
      processAllParts [some 0, some 1] 2 (ps ++ qs) =
        orVec (processAllParts [some 0, some 1] 2 ps)
          (processAllParts [some 0, some 1] 2 qs) :=
  process_result_parts_order_independent [some 0, some 1] 2 [rpA, rpB] [rpB, rpA]
    (List.Perm.swap rpB rpA [])

/-- Modelled from the spec: the result-processing workers share one atomic
parts-received counter (src line 250, std::atomic<std::uint32_t>
package_count; the worker body is external).  Atomic increment-and-compare
serializes the deliveries, so a concurrent execution is a schedule: the list
of worker identifiers in the order their increments took effect.  Each
delivery increments the counter and observes whether it just reached the
expected total (the Complete trigger). -/
def deliverLoop (expected : Nat) : Nat → List Nat → List Bool
  | _, [] => []
  | c, _ :: rest => (c + 1 == expected) :: deliverLoop expected (c + 1) rest

/-- Number of true flags in a list. -/
def countTrue : List Bool → Nat
  | [] => 0
  | b :: rest => (if b then 1 else 0) + countTrue rest

/-- Number of Complete triggers observed over a whole schedule. -/
def completions (expected : Nat) (schedule : List Nat) : Nat :=
  countTrue (deliverLoop expected 0 schedule)

theorem countTrue_deliverLoop (expected : Nat) :
    ∀ (schedule : List Nat) (c : Nat),
      countTrue (deliverLoop expected c schedule) =
        if c < expected ∧ expected ≤ c + schedule.length then 1 else 0 := by
  intro schedule
  induction schedule with
  | nil =>
    intro c
    simp only [deliverLoop, countTrue, List.length_nil]
    rw [if_neg (by omega)]
  | cons w rest ih =>
    intro c
    simp only [deliverLoop, countTrue, List.length_cons]
    rw [ih (c + 1)]
    by_cases h1 : c + 1 = expected
    · subst h1
      rw [if_pos (show ((c + 1 : Nat) == c + 1) = true by simp),
        if_neg (show ¬(c + 1 < c + 1 ∧ c + 1 ≤ c + 1 + rest.length) from by omega),
        if_pos (show c < c + 1 ∧ c + 1 ≤ c + (rest.length + 1) from by omega)]
    · rw [if_neg (show ¬((c + 1 : Nat) == expected) = true from by simp [h1])]
      by_cases h2 : c + 1 < expected ∧ expected ≤ c + 1 + rest.length
      · rw [if_pos h2, if_pos (by omega)]
      · rw [if_neg h2, if_neg (by omega)]

/-- C7: over every schedule of exactly the expected number of part
deliveries — any interleaving of any number of workers — the shared atomic
counter reaches the expected total exactly once, so the Complete transition
is triggered exactly once, by whichever delivery observes the counter
hitting the total. -/
theorem completion_triggered_exactly_once (expected : Nat) (schedule : List Nat)
    (hpos : 0 < expected) (hlen : schedule.length = expected) :
    completions expected schedule = 1 := by
  unfold completions
  rw [countTrue_deliverLoop expected schedule 0]
  rw [if_pos (by omega)]

/-- C7 witness: three parts delivered by three distinct workers trigger
completion exactly once. -/
theorem completion_triggered_exactly_once_witness :
    completions 3 [7, 8, 9] = 1 :=
  completion_triggered_exactly_once 3 [7, 8, 9] (by decide) (by rfl)
